import Mathlib

/-!
Shallow embedding of the image-resolution fallback pipeline and the markdown
rewriting logic of `process_pdfs.py` (function `process_pdfs` of the mocr
repository), together with proofs of the specification claims about them.

Strings are modelled as `List Char`, byte payloads as `List Nat`.  The image
bytes produced by the PIL placeholder renderer are treated as an opaque value
determined by the id and the dimensions (the renderer itself is an external
collaborator per the spec); everything else (base64 decoding, the fallback
chain, pool consumption, the two discovery passes, the `re.sub` scanning and
replacement-template semantics used by the rewriter) is modelled faithfully
from the source.  I/O failures while persisting bytes are modelled by a
failure oracle `FailSite → Bool` naming the write/copy sites of the source;
a raised exception is an `Except.error`.
-/

set_option maxHeartbeats 1000000

/-- Last index of a character in a list, from `str.rfind` semantics. -/
def lastIndexOfAux (c : Char) : List Char → Nat → Option Nat → Option Nat
  | [], _, acc => acc
  | x :: xs, i, acc => lastIndexOfAux c xs (i + 1) (if x = c then some i else acc)

def lastIndexOf (c : Char) (s : List Char) : Option Nat :=
  lastIndexOfAux c s 0 none

/-- `os.path.splitext(p)[0]`: strip the final extension, unless the basename
consists only of leading dots up to that extension separator. -/
def splitextBase (p : List Char) : List Char :=
  match lastIndexOf '.' p with
  | none => p
  | some dotIdx =>
      let start := match lastIndexOf '/' p with
                   | none => 0
                   | some sepIdx => sepIdx + 1
      if start ≤ dotIdx ∧ ((p.drop start).take (dotIdx - start)).any (fun c => c ≠ '.') then
        p.take dotIdx
      else p

/-- `img_id.split('.')[-1] if '.' in img_id else 'jpeg'` from the second
discovery pass. -/
def extOf (imgId : List Char) : List Char :=
  if '.' ∈ imgId then (imgId.reverse.takeWhile (fun c => c ≠ '.')).reverse
  else ['j', 'p', 'e', 'g']

/-- Value of one base64 alphabet character. -/
def b64Val (c : Char) : Option Nat :=
  if 'A' ≤ c ∧ c ≤ 'Z' then some (c.toNat - 65)
  else if 'a' ≤ c ∧ c ≤ 'z' then some (c.toNat - 97 + 26)
  else if '0' ≤ c ∧ c ≤ '9' then some (c.toNat - 48 + 52)
  else if c = '+' then some 62
  else if c = '/' then some 63
  else none

/-- Standard base64 decoding of a valid padded input (`base64.b64decode`).
Returns `none` where the Python call raises `binascii.Error`. -/
def b64DecodeAux : List Char → Option (List Nat)
  | [] => some []
  | a :: b :: c :: d :: rest =>
      (match b64Val a, b64Val b with
       | some va, some vb =>
           if c = '=' then
             if d = '=' ∧ rest = [] then some [va * 4 + vb / 16] else none
           else
             (match b64Val c with
              | some vc =>
                  if d = '=' then
                    if rest = [] then some [va * 4 + vb / 16, (vb % 16) * 16 + vc / 4]
                    else none
                  else
                    (match b64Val d with
                     | some vd =>
                         (b64DecodeAux rest).map
                           (fun bs => (va * 4 + vb / 16) :: ((vb % 16) * 16 + vc / 4) ::
                             ((vc % 4) * 64 + vd) :: bs)
                     | none => none)
              | none => none)
       | _, _ => none)
  | _ => none

def b64Decode (s : List Char) : Option (List Nat) :=
  b64DecodeAux s

/-- Bounding box of an OCR image descriptor. -/
structure BBox where
  tlx : Int
  tly : Int
  brx : Int
  bry : Int
deriving DecidableEq, Repr

/-- State of the optional `image` attribute probed by Method 2 of the source
(`hasattr(image_object, 'image')` followed by an `isinstance(..., bytes)`
check). -/
inductive ObjImage
  | absent
  | nonBytes
  | someBytes (bs : List Nat)
deriving DecidableEq, Repr

/-- One image descriptor of the OCR response (`page.images[i]`). -/
structure ImageObject where
  id : List Char
  image_base64 : Option (List Char)
  dataAttr : Option (List Char)
  objImage : ObjImage
  bbox : Option BBox
deriving DecidableEq, Repr

/-- One entry of the `images` dict built by the discovery passes. -/
structure ImgInfo where
  data : Option (List Char)
  filename : List Char
  extracted : Bool
  image_object : Option ImageObject
deriving DecidableEq, Repr

/-- Disposition tag of a resolved image (spec section 3). -/
inductive Disposition
  | fromInlineData
  | fromObjectBytes
  | fromExtractedPdfImage
  | synthesizedPlaceholder
deriving DecidableEq, Repr

/-- The bytes persisted for one image.  `placeholder` stands for the JPEG
buffer rendered by `create_placeholder_image` (an external renderer), which
is determined by the id and the dimensions. -/
inductive SavedBytes
  | raw (bs : List Nat)
  | copied (poolId poolPath : List Char)
  | placeholder (imgId : List Char) (w h : Nat)
deriving DecidableEq, Repr

/-- One resolved image: identifier, saved filename, persisted bytes and the
disposition tag of the step that produced them. -/
structure Resolved where
  imgId : List Char
  filename : List Char
  payload : SavedBytes
  disposition : Disposition
deriving DecidableEq, Repr

/-- Outcome of resolving one identifier: either bytes were persisted, or even
the final fallback placeholder write failed and the image was skipped. -/
inductive Outcome
  | saved (r : Resolved)
  | skipped (imgId : List Char)
deriving DecidableEq, Repr

/-- The write/copy sites of the resolution loop at which an I/O failure can
be injected. -/
inductive FailSite
  | writeInline
  | writeObjectBytes
  | copyBBoxPool
  | writeBBoxPlaceholder
  | copyResidualPool
  | writeGenericPlaceholder
  | writeFallbackPlaceholder
deriving DecidableEq, Repr

/-- The extracted-PDF-image pool `pdf_images`: id/path pairs in insertion
order; `next(iter(...))` takes the head. -/
abbrev Pool := List (List Char × List Char)

/-- `create_placeholder_image(img_id, width, height)`: the rendered JPEG
buffer, abstracted as a value determined by its inputs.  The source's default
arguments are `width=400, height=300`. -/
def create_placeholder_image (imgId : List Char) (width height : Nat) : SavedBytes :=
  .placeholder imgId width height

/-- `max(100, min(800, int(x)))` applied to a bounding-box extent. -/
def clampDim (x : Int) : Nat :=
  (max 100 (min 800 x)).toNat

/-- Lines 369-373 of the source: write the generic default-size placeholder. -/
def genericPlaceholder (fails : FailSite → Bool) (imgId : List Char) (pool : Pool) :
    Except Unit ((SavedBytes × Disposition) × Pool) :=
  if fails .writeGenericPlaceholder then .error ()
  else .ok ((create_placeholder_image imgId 400 300, .synthesizedPlaceholder), pool)

/-- Lines 348-366 then 369-373: residual pool reuse, falling back to the
generic placeholder.  A failed copy is caught by the inner handler and leaves
the pool unchanged. -/
def afterChain (fails : FailSite → Bool) (imgId : List Char) (pool : Pool) :
    Except Unit ((SavedBytes × Disposition) × Pool) :=
  match pool with
  | [] => genericPlaceholder fails imgId []
  | e :: rest =>
      if fails .copyResidualPool then genericPlaceholder fails imgId (e :: rest)
      else .ok ((.copied e.1 e.2, .fromExtractedPdfImage), rest)

/-- Lines 333-346: placeholder sized from the bounding box. -/
def bboxPlaceholder (fails : FailSite → Bool) (imgId : List Char) (bb : BBox) (pool : Pool) :
    Except Unit ((SavedBytes × Disposition) × Pool) :=
  if fails .writeBBoxPlaceholder then .error ()
  else .ok ((create_placeholder_image imgId (clampDim (bb.brx - bb.tlx)) (clampDim (bb.bry - bb.tly)),
             .synthesizedPlaceholder), pool)

/-- Lines 311-346: the coordinates branch, Method 4 (pool reuse) then the
box-sized placeholder. -/
def bboxBranch (fails : FailSite → Bool) (imgId : List Char) (bb : BBox) (pool : Pool) :
    Except Unit ((SavedBytes × Disposition) × Pool) :=
  match pool with
  | [] => bboxPlaceholder fails imgId bb []
  | e :: rest =>
      if fails .copyBBoxPool then bboxPlaceholder fails imgId bb (e :: rest)
      else .ok ((.copied e.1 e.2, .fromExtractedPdfImage), rest)

/-- The body of the per-image `try` block, lines 284-373: the elif chain of
Methods 1-3 (with 4 nested in 3), then residual pool reuse and the generic
placeholder. -/
def tryBody (fails : FailSite → Bool) (imgId : List Char) (info : ImgInfo) (pool : Pool) :
    Except Unit ((SavedBytes × Disposition) × Pool) :=
  match info.data with
  | some s =>
      (match b64Decode s with
       | none => .error ()
       | some bs =>
           if fails .writeInline then .error ()
           else .ok ((.raw bs, .fromInlineData), pool))
  | none =>
      match info.image_object with
      | none => afterChain fails imgId pool
      | some obj =>
          match obj.objImage with
          | .someBytes bs =>
              if fails .writeObjectBytes then .error ()
              else .ok ((.raw bs, .fromObjectBytes), pool)
          | .nonBytes => afterChain fails imgId pool
          | .absent =>
              match obj.bbox with
              | some bb => bboxBranch fails imgId bb pool
              | none => afterChain fails imgId pool

/-- One iteration of the save loop (lines 280-384): the `try` body, and on
any exception the fallback placeholder of lines 377-384; if that write also
fails the image is reported and skipped. -/
def resolveImageF (fails : FailSite → Bool) (imgId : List Char) (info : ImgInfo) (pool : Pool) :
    Outcome × Pool :=
  match tryBody fails imgId info pool with
  | .ok (pd, pool2) => (.saved ⟨imgId, info.filename, pd.1, pd.2⟩, pool2)
  | .error _ =>
      if fails .writeFallbackPlaceholder then (.skipped imgId, pool)
      else (.saved ⟨imgId, info.filename, create_placeholder_image imgId 400 300,
              .synthesizedPlaceholder⟩, pool)

/-- Resolution without injected I/O failures. -/
def resolveImage (imgId : List Char) (info : ImgInfo) (pool : Pool) : Outcome × Pool :=
  resolveImageF (fun _ => false) imgId info pool

/-- The whole save loop over the `images` dict items, threading the pool.
The oracle is indexed by the position of the image in the iteration. -/
def resolveAllF (fails : Nat → FailSite → Bool) :
    List (List Char × ImgInfo) → Pool → List Outcome × Pool
  | [], pool => ([], pool)
  | kv :: rest, pool =>
      let r1 := resolveImageF (fails 0) kv.1 kv.2 pool
      let r2 := resolveAllF (fun n => fails (n + 1)) rest r1.2
      (r1.1 :: r2.1, r2.2)

/-- Identifier an outcome is about. -/
def outId : Outcome → List Char
  | .saved r => r.imgId
  | .skipped i => i

/-- Disposition of a saved outcome. -/
def dispOf : Outcome → Option Disposition
  | .saved r => some r.disposition
  | .skipped _ => none

/-- Pool entry consumed by an outcome, when its bytes were copied from the
extracted-PDF-image pool. -/
def consumedOf : Outcome → Option (List Char × List Char)
  | .saved r =>
      (match r.payload with
       | .copied a b => some (a, b)
       | _ => none)
  | .skipped _ => none

/-- Object byte payload exposed by the descriptor stored in an entry
(Method 2's `hasattr`/`isinstance` probe). -/
def objBytesOf (info : ImgInfo) : Option (List Nat) :=
  match info.image_object with
  | some o =>
      (match o.objImage with
       | .someBytes bs => some bs
       | _ => none)
  | none => none

/-- One page of the OCR response: its markdown and its image descriptors. -/
structure PageModel where
  markdown : List Char
  images : List ImageObject
deriving Repr

/-- The entry created by the first discovery pass for a markdown reference
whose extension-stripped id is `iid`. -/
def mdInfo (iid : List Char) : ImgInfo :=
  ⟨none, iid ++ ('.' :: ['j', 'p', 'e', 'g']), false, none⟩

/-- Match a non-greedy second regex group, `(.*?)\)`: shortest run of
non-newline characters up to a closing parenthesis. -/
def scanGroup2 : List Char → Option (List Char × List Char)
  | [] => none
  | c :: cs =>
      if c = ')' then some ([], cs)
      else if c = '\n' then none
      else (scanGroup2 cs).map (fun p => (c :: p.1, p.2))

/-- Match `(.*?)\]\((.*?)\)` with leftmost-shortest (backtracking) semantics:
the first group stops at the earliest `](` after which the second group can
close; `.` never crosses a newline. -/
def scanGroup1 : List Char → Option (List Char × List Char × List Char)
  | [] => none
  | a :: cs =>
      if a = ']' ∧ cs.head? = some '(' then
        match scanGroup2 cs.tail with
        | some p => some ([], p.1, p.2)
        | none =>
            if a = '\n' then none
            else (scanGroup1 cs).map (fun q => (a :: q.1, q.2.1, q.2.2))
      else
        if a = '\n' then none
        else (scanGroup1 cs).map (fun q => (a :: q.1, q.2.1, q.2.2))

/-- Try to match `!\[(.*?)\]\((.*?)\)` at the head of the string, returning
(alt text, reference target, rest after the match). -/
def matchImgAt (s : List Char) : Option (List Char × List Char × List Char) :=
  match s with
  | a :: b :: cs => if a = '!' ∧ b = '[' then scanGroup1 cs else none
  | _ => none

/-- `re.findall(r'!\[(.*?)\]\((.*?)\)', md)`: scan left to right, collect the
two groups of each non-overlapping leftmost match.  The fuel argument bounds
the recursion by the string length. -/
def findRefsGo : Nat → List Char → List (List Char × List Char)
  | _, [] => []
  | 0, _ => []
  | fuel + 1, c :: cs =>
      match matchImgAt (c :: cs) with
      | some r => (r.1, r.2.1) :: findRefsGo fuel r.2.2
      | none => findRefsGo fuel cs

def findRefs (s : List Char) : List (List Char × List Char) :=
  findRefsGo s.length s

/-- First pass, one markdown reference (lines 232-241): strip the extension,
and if the id was not collected yet, record it and create its entry. -/
def pass1Step (st : List (List Char) × List (List Char × ImgInfo))
    (ref : List Char × List Char) : List (List Char) × List (List Char × ImgInfo) :=
  let iid := splitextBase ref.2
  if iid ∈ st.1 then st
  else (st.1 ++ [iid], st.2 ++ [(iid, mdInfo iid)])

def pass1Page (st : List (List Char) × List (List Char × ImgInfo)) (md : List Char) :
    List (List Char) × List (List Char × ImgInfo) :=
  (findRefs md).foldl pass1Step st

/-- First discovery pass over all pages (lines 227-241). -/
def pass1All (pages : List PageModel) : List (List Char) × List (List Char × ImgInfo) :=
  pages.foldl (fun st p => pass1Page st p.markdown) ([], [])

/-- The entry the second pass stores for a descriptor (lines 247-277):
`image_base64` first, else the `data` attribute; filename `{id}.{ext}`. -/
def pass2Info (d : ImageObject) : ImgInfo :=
  ⟨(match d.image_base64 with
    | some s => some s
    | none => d.dataAttr),
   d.id ++ ('.' :: extOf d.id), true, some d⟩

/-- Python dict assignment on an association list kept in insertion order:
an existing key keeps its position, a new key is appended. -/
def upsert (xs : List (List Char × ImgInfo)) (k : List Char) (v : ImgInfo) :
    List (List Char × ImgInfo) :=
  if k ∈ xs.map (fun kv => kv.1) then
    xs.map (fun kv => if kv.1 = k then (k, v) else kv)
  else xs ++ [(k, v)]

def pass2Img (xs : List (List Char × ImgInfo)) (d : ImageObject) :
    List (List Char × ImgInfo) :=
  upsert xs d.id (pass2Info d)

/-- Second discovery pass over all pages (lines 243-277). -/
def pass2All (pages : List PageModel) (xs : List (List Char × ImgInfo)) :
    List (List Char × ImgInfo) :=
  pages.foldl (fun a p => p.images.foldl pass2Img a) xs

/-- The `images` dict after both discovery passes, as an ordered association
list. -/
def buildImages (pages : List PageModel) : List (List Char × ImgInfo) :=
  pass2All pages (pass1All pages).2

/-- Association-list lookup (Python dict access by key). -/
def lookupKey : List (List Char × ImgInfo) → List Char → Option ImgInfo
  | [], _ => none
  | kv :: rest, q => if kv.1 = q then some kv.2 else lookupKey rest q

/-- One item of a parsed `re.sub` replacement template: a literal character,
or a reference to group 0 (the whole match). -/
inductive TItem
  | lit (c : Char)
  | whole
deriving DecidableEq, Repr

/-- The template escapes table of `re`'s template parser
(`\a \b \f \n \r \t \v \\`). -/
def escCharMap (c : Char) : Option Char :=
  if c = 'a' then some (Char.ofNat 7)
  else if c = 'b' then some (Char.ofNat 8)
  else if c = 'f' then some (Char.ofNat 12)
  else if c = 'n' then some (Char.ofNat 10)
  else if c = 'r' then some (Char.ofNat 13)
  else if c = 't' then some (Char.ofNat 9)
  else if c = 'v' then some (Char.ofNat 11)
  else if c = '\\' then some '\\'
  else none

def isAsciiLetterCh (c : Char) : Bool :=
  ('a' ≤ c ∧ c ≤ 'z') ∨ ('A' ≤ c ∧ c ≤ 'Z')

def isOctDigit (c : Char) : Bool :=
  '0' ≤ c ∧ c ≤ '7'

def octDigitVal (c : Char) : Nat :=
  c.toNat - 48

def decDigitsVal (s : List Char) : Nat :=
  s.foldl (fun a c => a * 10 + (c.toNat - 48)) 0

/-- Split a `\g<...>` group name at the closing `>`. -/
def splitUntilGt : List Char → Option (List Char × List Char)
  | [] => none
  | c :: cs =>
      if c = '>' then some ([], cs)
      else (splitUntilGt cs).map (fun p => (c :: p.1, p.2))

/-- Parse a `re.sub` string replacement template against a pattern with zero
capture groups, following `re`'s template parser: octal escapes and the
escapes table expand to literal characters, `\g<0>` (and digit-only names of
value zero) refers to the whole match, any other group reference is an
invalid group reference, a backslash before another ASCII letter is a bad
escape, a lone trailing backslash is a bad escape, and a backslash before any
other character is kept as those two literal characters.  `none` is the
parse error `re.sub` raises before scanning. -/
def parseTemplateGo : Nat → List Char → Option (List TItem)
  | _, [] => some []
  | 0, _ :: _ => none
  | fuel + 1, c :: rest =>
      if c ≠ '\\' then (parseTemplateGo fuel rest).map (fun ts => .lit c :: ts)
      else
        match rest with
        | [] => none
        | d :: r2 =>
            if d = 'g' then
              match r2 with
              | '<' :: r3 =>
                  (match splitUntilGt r3 with
                   | some (name, r4) =>
                       if name ≠ [] ∧ name.all Char.isDigit then
                         if decDigitsVal name = 0 then
                           (parseTemplateGo fuel r4).map (fun ts => .whole :: ts)
                         else none
                       else none
                   | none => none)
              | _ => none
            else if d = '0' then
              match r2 with
              | [] => some [.lit (Char.ofNat 0)]
              | e :: r3 =>
                  if isOctDigit e then
                    match r3 with
                    | [] => some [.lit (Char.ofNat (octDigitVal e))]
                    | f :: r4 =>
                        if isOctDigit f then
                          (parseTemplateGo fuel r4).map
                            (fun ts => .lit (Char.ofNat (octDigitVal e * 8 + octDigitVal f)) :: ts)
                        else (parseTemplateGo fuel r3).map
                            (fun ts => .lit (Char.ofNat (octDigitVal e)) :: ts)
                  else (parseTemplateGo fuel r2).map (fun ts => .lit (Char.ofNat 0) :: ts)
            else if d.isDigit then
              match r2 with
              | [] => none
              | e :: r3 =>
                  if e.isDigit then
                    match r3 with
                    | [] => none
                    | f :: r4 =>
                        if isOctDigit d ∧ isOctDigit e ∧ isOctDigit f then
                          (if octDigitVal d * 64 + octDigitVal e * 8 + octDigitVal f > 255 then
                             none
                           else (parseTemplateGo fuel r4).map
                             (fun ts =>
                               .lit (Char.ofNat (octDigitVal d * 64 + octDigitVal e * 8 +
                                 octDigitVal f)) :: ts))
                        else none
                  else none
            else
              match escCharMap d with
              | some ch => (parseTemplateGo fuel r2).map (fun ts => .lit ch :: ts)
              | none =>
                  if isAsciiLetterCh d then none
                  else (parseTemplateGo fuel r2).map (fun ts => .lit '\\' :: .lit d :: ts)

def parseTemplate (s : List Char) : Option (List TItem) :=
  parseTemplateGo s.length s

/-- Expand a parsed template against the matched text `m`. -/
def expandItems (items : List TItem) (m : List Char) : List Char :=
  match items with
  | [] => []
  | .lit c :: ts => c :: expandItems ts m
  | .whole :: ts => m ++ expandItems ts m

/-- Match the tail `(.*?)\]\(` id `\)` of the rewriter's pattern, non-greedy:
shortest run of non-newline characters followed by the literal `](` id `)`.
Returns (the run, the rest after the match). -/
def scanSub (id : List Char) : List Char → Option (List Char × List Char)
  | [] => none
  | a :: cs =>
      if (']' :: '(' :: (id ++ [')'])).isPrefixOf (a :: cs) then
        some ([], (a :: cs).drop (id.length + 3))
      else if a = '\n' then none
      else (scanSub id cs).map (fun p => (a :: p.1, p.2))

/-- Try to match the whole rewriter pattern `!\[.*?\]\(` id `\)` at the head
of the string. -/
def matchSubAt (id : List Char) (s : List Char) : Option (List Char × List Char) :=
  match s with
  | a :: b :: cs => if a = '!' ∧ b = '[' then scanSub id cs else none
  | _ => none

/-- The text of a match whose inner run is `dots`. -/
def matchText (id dots : List Char) : List Char :=
  '!' :: '[' :: dots ++ ']' :: '(' :: id ++ [')']

/-- `re.sub` scanning with a parsed template: replace every leftmost
non-overlapping match, resuming after each match.  Fuel bounds the recursion
by the string length. -/
def reSubGo (id : List Char) (items : List TItem) : Nat → List Char → List Char
  | _, [] => []
  | 0, s => s
  | fuel + 1, c :: cs =>
      match matchSubAt id (c :: cs) with
      | some p => expandItems items (matchText id p.1) ++ reSubGo id items fuel p.2
      | none => c :: reSubGo id items fuel cs

def reSubAllT (id : List Char) (items : List TItem) (s : List Char) : List Char :=
  reSubGo id items s.length s

/-- Whether the rewriter pattern for `id` matches anywhere in `s`. -/
def hasM (id : List Char) : List Char → Bool
  | [] => false
  | c :: cs => (matchSubAt id (c :: cs)).isSome || hasM id cs

/-- One `re.sub(pattern_for_id, templ, s)` call of the source: the template
is parsed (raising on a bad template), then every match of the escaped-id
pattern is replaced by its expansion. -/
def reSub (id templ s : List Char) : Option (List Char) :=
  (parseTemplate templ).map (fun items => reSubAllT id items s)

/-- The replacement string `f'![{img_id}]({file_stem}/{img_filename})'`. -/
def mkReplacement (imgId fileStem filename : List Char) : List Char :=
  '!' :: '[' :: imgId ++ ']' :: '(' :: fileStem ++ '/' :: filename ++ [')']

/-- Lines 393-406: for one `images` entry, substitute the full-id pattern and
then the base-id pattern, both with the same replacement. -/
def rewriteKey (fileStem : List Char) (md : List Char) (kv : List Char × ImgInfo) :
    Option (List Char) :=
  match reSub kv.1 (mkReplacement kv.1 fileStem kv.2.filename) md with
  | none => none
  | some md1 => reSub (splitextBase kv.1) (mkReplacement kv.1 fileStem kv.2.filename) md1

/-- The per-page rewriting loop over all `images` entries in insertion order.
`none` is an exception escaping to the per-document handler. -/
def rewritePage (fileStem : List Char) (imgs : List (List Char × ImgInfo))
    (md : List Char) : Option (List Char) :=
  imgs.foldlM (fun acc kv => rewriteKey fileStem acc kv) md

/-- Literal-replacement rewriting: what the loop does when every replacement
string is free of backslashes, so the template is its own expansion. -/
def rewriteKeyLit (fileStem : List Char) (md : List Char) (kv : List Char × ImgInfo) :
    List Char :=
  reSubAllT (splitextBase kv.1)
    ((mkReplacement kv.1 fileStem kv.2.filename).map .lit)
    (reSubAllT kv.1 ((mkReplacement kv.1 fileStem kv.2.filename).map .lit) md)

def rewritePageLit (fileStem : List Char) (imgs : List (List Char × ImgInfo))
    (md : List Char) : List Char :=
  imgs.foldl (fun acc kv => rewriteKeyLit fileStem acc kv) md


/-- The pool entries consumed by a list of outcomes. -/
def consumedList (os : List Outcome) : List (List Char × List Char) :=
  os.filterMap consumedOf

/-- Invariant of the first pass state: the collected id list is exactly the
key list of the entries (so membership tests agree), it has no duplicates,
and every entry has the markdown-entry shape. -/
def P1Inv (st : List (List Char) × List (List Char × ImgInfo)) : Prop :=
  st.1 = st.2.map (fun kv => kv.1) ∧ st.1.Nodup ∧ ∀ kv ∈ st.2, kv.2 = mdInfo kv.1

/-- Case shape of the generic placeholder write. -/
theorem genericPlaceholder_cases (f : FailSite → Bool) (imgId : List Char) (pool : Pool) :
    genericPlaceholder f imgId pool = .error () ∨
    genericPlaceholder f imgId pool =
      .ok ((.placeholder imgId 400 300, .synthesizedPlaceholder), pool) := by
  unfold genericPlaceholder create_placeholder_image
  split <;> simp

theorem afterChain_cases (f : FailSite → Bool) (imgId : List Char) (pool : Pool) :
    afterChain f imgId pool = .error () ∨
    afterChain f imgId pool =
      .ok ((.placeholder imgId 400 300, .synthesizedPlaceholder), pool) ∨
    (∃ e rest, pool = e :: rest ∧
      afterChain f imgId pool = .ok ((.copied e.1 e.2, .fromExtractedPdfImage), rest)) := by
  match pool with
  | [] =>
      have e1 : afterChain f imgId [] = genericPlaceholder f imgId [] := rfl
      rw [e1]
      rcases genericPlaceholder_cases f imgId ([] : Pool) with h | h
      · exact Or.inl h
      · exact Or.inr (Or.inl h)
  | e :: rest =>
      by_cases hf : f .copyResidualPool
      · have e1 : afterChain f imgId (e :: rest) = genericPlaceholder f imgId (e :: rest) := by
          simp [afterChain, hf]
        rw [e1]
        rcases genericPlaceholder_cases f imgId (e :: rest) with h | h
        · exact Or.inl h
        · exact Or.inr (Or.inl h)
      · have e1 : afterChain f imgId (e :: rest) =
            .ok ((.copied e.1 e.2, .fromExtractedPdfImage), rest) := by
          simp [afterChain, hf]
        rw [e1]
        exact Or.inr (Or.inr ⟨e, rest, rfl, rfl⟩)

theorem bboxPlaceholder_cases (f : FailSite → Bool) (imgId : List Char) (bb : BBox)
    (pool : Pool) :
    bboxPlaceholder f imgId bb pool = .error () ∨
    (∃ w h, bboxPlaceholder f imgId bb pool =
      .ok ((.placeholder imgId w h, .synthesizedPlaceholder), pool)) := by
  unfold bboxPlaceholder create_placeholder_image
  split
  · exact Or.inl rfl
  · exact Or.inr ⟨_, _, rfl⟩

theorem bboxBranch_cases (f : FailSite → Bool) (imgId : List Char) (bb : BBox) (pool : Pool) :
    bboxBranch f imgId bb pool = .error () ∨
    (∃ w h, bboxBranch f imgId bb pool =
      .ok ((.placeholder imgId w h, .synthesizedPlaceholder), pool)) ∨
    (∃ e rest, pool = e :: rest ∧
      bboxBranch f imgId bb pool = .ok ((.copied e.1 e.2, .fromExtractedPdfImage), rest)) := by
  match pool with
  | [] =>
      have e1 : bboxBranch f imgId bb [] = bboxPlaceholder f imgId bb [] := rfl
      rw [e1]
      rcases bboxPlaceholder_cases f imgId bb ([] : Pool) with h | h
      · exact Or.inl h
      · exact Or.inr (Or.inl h)
  | e :: rest =>
      by_cases hf : f .copyBBoxPool
      · have e1 : bboxBranch f imgId bb (e :: rest) = bboxPlaceholder f imgId bb (e :: rest) := by
          simp [bboxBranch, hf]
        rw [e1]
        rcases bboxPlaceholder_cases f imgId bb (e :: rest) with h | h
        · exact Or.inl h
        · exact Or.inr (Or.inl h)
      · have e1 : bboxBranch f imgId bb (e :: rest) =
            .ok ((.copied e.1 e.2, .fromExtractedPdfImage), rest) := by
          simp [bboxBranch, hf]
        rw [e1]
        exact Or.inr (Or.inr ⟨e, rest, rfl, rfl⟩)

/-- Every run of the try body either raises, persists non-pool bytes leaving
the pool unchanged, or consumes exactly the head of the pool. -/
theorem tryBody_cases (f : FailSite → Bool) (imgId : List Char) (info : ImgInfo)
    (pool : Pool) :
    tryBody f imgId info pool = .error () ∨
    (∃ bs disp, tryBody f imgId info pool = .ok ((.raw bs, disp), pool) ∧
      disp ≠ Disposition.fromExtractedPdfImage) ∨
    (∃ w h, tryBody f imgId info pool =
      .ok ((.placeholder imgId w h, .synthesizedPlaceholder), pool)) ∨
    (∃ e rest, pool = e :: rest ∧
      tryBody f imgId info pool = .ok ((.copied e.1 e.2, .fromExtractedPdfImage), rest)) := by
  rcases hd : info.data with _ | s
  · rcases ho : info.image_object with _ | obj
    · have e1 : tryBody f imgId info pool = afterChain f imgId pool := by
        simp [tryBody, hd, ho]
      rw [e1]
      rcases afterChain_cases f imgId pool with h | h | h
      · exact Or.inl h
      · exact Or.inr (Or.inr (Or.inl ⟨400, 300, h⟩))
      · exact Or.inr (Or.inr (Or.inr h))
    · rcases hoi : obj.objImage with _ | _ | bs
      · rcases hb : obj.bbox with _ | bb
        · have e1 : tryBody f imgId info pool = afterChain f imgId pool := by
            simp [tryBody, hd, ho, hoi, hb]
          rw [e1]
          rcases afterChain_cases f imgId pool with h | h | h
          · exact Or.inl h
          · exact Or.inr (Or.inr (Or.inl ⟨400, 300, h⟩))
          · exact Or.inr (Or.inr (Or.inr h))
        · have e1 : tryBody f imgId info pool = bboxBranch f imgId bb pool := by
            simp [tryBody, hd, ho, hoi, hb]
          rw [e1]
          rcases bboxBranch_cases f imgId bb pool with h | h | h
          · exact Or.inl h
          · exact Or.inr (Or.inr (Or.inl h))
          · exact Or.inr (Or.inr (Or.inr h))
      · have e1 : tryBody f imgId info pool = afterChain f imgId pool := by
          simp [tryBody, hd, ho, hoi]
        rw [e1]
        rcases afterChain_cases f imgId pool with h | h | h
        · exact Or.inl h
        · exact Or.inr (Or.inr (Or.inl ⟨400, 300, h⟩))
        · exact Or.inr (Or.inr (Or.inr h))
      · by_cases hf : f .writeObjectBytes
        · have e1 : tryBody f imgId info pool = .error () := by
            simp [tryBody, hd, ho, hoi, hf]
          exact Or.inl e1
        · have e1 : tryBody f imgId info pool = .ok ((.raw bs, .fromObjectBytes), pool) := by
            simp [tryBody, hd, ho, hoi, hf]
          exact Or.inr (Or.inl ⟨bs, .fromObjectBytes, e1, by simp⟩)
  · rcases hb64 : b64Decode s with _ | bs
    · have e1 : tryBody f imgId info pool = .error () := by
        simp [tryBody, hd, hb64]
      exact Or.inl e1
    · by_cases hf : f .writeInline
      · have e1 : tryBody f imgId info pool = .error () := by
          simp [tryBody, hd, hb64, hf]
        exact Or.inl e1
      · have e1 : tryBody f imgId info pool = .ok ((.raw bs, .fromInlineData), pool) := by
          simp [tryBody, hd, hb64, hf]
        exact Or.inr (Or.inl ⟨bs, .fromInlineData, e1, by simp⟩)

/-- One resolution either leaves the pool untouched (and consumed no entry,
and its disposition is not pool-based), or consumes exactly the pool's head. -/
theorem resolveImageF_pool_step (f : FailSite → Bool) (imgId : List Char)
    (info : ImgInfo) (pool : Pool) :
    (consumedOf (resolveImageF f imgId info pool).1 = none ∧
      (resolveImageF f imgId info pool).2 = pool ∧
      dispOf (resolveImageF f imgId info pool).1 ≠ some .fromExtractedPdfImage) ∨
    (∃ e rest, pool = e :: rest ∧
      consumedOf (resolveImageF f imgId info pool).1 = some e ∧
      (resolveImageF f imgId info pool).2 = rest ∧
      dispOf (resolveImageF f imgId info pool).1 = some .fromExtractedPdfImage) := by
  rcases tryBody_cases f imgId info pool with h | ⟨bs, disp, h, hne⟩ | ⟨w, hh, h⟩ |
    ⟨e, rest, hp, h⟩
  · left
    by_cases hf : f .writeFallbackPlaceholder
    · have e1 : resolveImageF f imgId info pool = (.skipped imgId, pool) := by
        simp [resolveImageF, h, hf]
      rw [e1]
      simp [consumedOf, dispOf]
    · have e1 : resolveImageF f imgId info pool =
          (.saved ⟨imgId, info.filename, .placeholder imgId 400 300,
            .synthesizedPlaceholder⟩, pool) := by
        simp [resolveImageF, h, hf, create_placeholder_image]
      rw [e1]
      simp [consumedOf, dispOf]
  · left
    have e1 : resolveImageF f imgId info pool =
        (.saved ⟨imgId, info.filename, .raw bs, disp⟩, pool) := by
      simp [resolveImageF, h]
    rw [e1]
    simp [consumedOf, dispOf, hne]
  · left
    have e1 : resolveImageF f imgId info pool =
        (.saved ⟨imgId, info.filename, .placeholder imgId w hh,
          .synthesizedPlaceholder⟩, pool) := by
      simp [resolveImageF, h]
    rw [e1]
    simp [consumedOf, dispOf]
  · right
    have e1 : resolveImageF f imgId info pool =
        (.saved ⟨imgId, info.filename, .copied e.1 e.2, .fromExtractedPdfImage⟩, rest) := by
      simp [resolveImageF, h]
    rw [e1]
    exact ⟨e, rest, hp, by simp [consumedOf], rfl, by simp [dispOf]⟩


theorem resolveAllF_pool_core (imgs : List (List Char × ImgInfo)) :
    ∀ (fails : Nat → FailSite → Bool) (pool : Pool),
    (resolveAllF fails imgs pool).2 =
      pool.drop (consumedList (resolveAllF fails imgs pool).1).length ∧
    consumedList (resolveAllF fails imgs pool).1 =
      pool.take (consumedList (resolveAllF fails imgs pool).1).length ∧
    (consumedList (resolveAllF fails imgs pool).1).length =
      (resolveAllF fails imgs pool).1.countP
        (fun o => decide (dispOf o = some Disposition.fromExtractedPdfImage)) := by
  induction imgs with
  | nil =>
      intro fails pool
      simp [resolveAllF, consumedList]
  | cons kv rest ih =>
      intro fails pool
      have e1 : resolveAllF fails (kv :: rest) pool =
          ((resolveImageF (fails 0) kv.1 kv.2 pool).1 ::
            (resolveAllF (fun n => fails (n + 1)) rest
              (resolveImageF (fails 0) kv.1 kv.2 pool).2).1,
           (resolveAllF (fun n => fails (n + 1)) rest
              (resolveImageF (fails 0) kv.1 kv.2 pool).2).2) := rfl
      rw [e1]
      rcases resolveImageF_pool_step (fails 0) kv.1 kv.2 pool with
        ⟨hc, hp2, hd⟩ | ⟨e, rest', hpool, hc, hp2, hd⟩
      · rw [hp2]
        rcases ih (fun n => fails (n + 1)) pool with ⟨ih1, ih2, ih3⟩
        have hdec : decide (dispOf (resolveImageF (fails 0) kv.1 kv.2 pool).1 =
            some Disposition.fromExtractedPdfImage) = false := by
          simpa using hd
        refine ⟨?_, ?_, ?_⟩
        · simpa [consumedList, List.filterMap_cons, hc] using ih1
        · simpa [consumedList, List.filterMap_cons, hc] using ih2
        · simpa [consumedList, List.filterMap_cons, hc, List.countP_cons, hdec] using ih3
      · subst hpool
        rw [hp2]
        rcases ih (fun n => fails (n + 1)) rest' with ⟨ih1, ih2, ih3⟩
        have hdec : decide (dispOf (resolveImageF (fails 0) kv.1 kv.2 (e :: rest')).1 =
            some Disposition.fromExtractedPdfImage) = true := by
          simpa using hd
        refine ⟨?_, ?_, ?_⟩
        · simpa [consumedList, List.filterMap_cons, hc] using ih1
        · simpa [consumedList, List.filterMap_cons, hc] using ih2
        · simpa [consumedList, List.filterMap_cons, hc, List.countP_cons, hdec,
            Nat.succ_eq_add_one] using ih3

/-- C1: the fallback chain resolves each image by the first applicable step,
in order: valid inline data wins outright; otherwise an exposed object byte
payload wins; otherwise, whenever the pool is non-empty — independently of
whether the descriptor carries a bounding box — the pool's head is consumed;
otherwise a placeholder is synthesized.  Each later step runs only when every
earlier step declined, and the step that persists bytes fixes the
disposition. -/
theorem resolveImage_fallback_order (imgId : List Char) (info : ImgInfo) (pool : Pool) :
    (∀ s bs, info.data = some s → b64Decode s = some bs →
      resolveImage imgId info pool =
        (.saved ⟨imgId, info.filename, .raw bs, .fromInlineData⟩, pool)) ∧
    (∀ bs, info.data = none → objBytesOf info = some bs →
      resolveImage imgId info pool =
        (.saved ⟨imgId, info.filename, .raw bs, .fromObjectBytes⟩, pool)) ∧
    (∀ e rest, info.data = none → objBytesOf info = none → pool = e :: rest →
      resolveImage imgId info pool =
        (.saved ⟨imgId, info.filename, .copied e.1 e.2, .fromExtractedPdfImage⟩, rest)) ∧
    (info.data = none → objBytesOf info = none → pool = [] →
      ∃ w h, resolveImage imgId info pool =
        (.saved ⟨imgId, info.filename, .placeholder imgId w h, .synthesizedPlaceholder⟩, [])) := by
  refine ⟨?_, ?_, ?_, ?_⟩
  · intro s bs h1 h2
    simp [resolveImage, resolveImageF, tryBody, h1, h2]
  · intro bs h1 h2
    rcases ho : info.image_object with _ | obj
    · simp [objBytesOf, ho] at h2
    · rcases hoi : obj.objImage with _ | _ | bs'
      · simp [objBytesOf, ho, hoi] at h2
      · simp [objBytesOf, ho, hoi] at h2
      · simp [objBytesOf, ho, hoi] at h2
        subst h2
        simp [resolveImage, resolveImageF, tryBody, h1, ho, hoi]
  · intro e rest h1 h2 h3
    subst h3
    rcases ho : info.image_object with _ | obj
    · simp [resolveImage, resolveImageF, tryBody, h1, ho, afterChain]
    · rcases hoi : obj.objImage with _ | _ | bs'
      · rcases hb : obj.bbox with _ | bb
        · simp [resolveImage, resolveImageF, tryBody, h1, ho, hoi, hb, afterChain]
        · simp [resolveImage, resolveImageF, tryBody, h1, ho, hoi, hb, bboxBranch]
      · simp [resolveImage, resolveImageF, tryBody, h1, ho, hoi, afterChain]
      · simp [objBytesOf, ho, hoi] at h2
  · intro h1 h2 h3
    subst h3
    rcases ho : info.image_object with _ | obj
    · exact ⟨400, 300, by simp [resolveImage, resolveImageF, tryBody, h1, ho, afterChain,
        genericPlaceholder, create_placeholder_image]⟩
    · rcases hoi : obj.objImage with _ | _ | bs'
      · rcases hb : obj.bbox with _ | bb
        · exact ⟨400, 300, by simp [resolveImage, resolveImageF, tryBody, h1, ho, hoi, hb,
            afterChain, genericPlaceholder, create_placeholder_image]⟩
        · exact ⟨clampDim (bb.brx - bb.tlx), clampDim (bb.bry - bb.tly),
            by simp [resolveImage, resolveImageF, tryBody, h1, ho, hoi, hb,
              bboxBranch, bboxPlaceholder, create_placeholder_image]⟩
      · exact ⟨400, 300, by simp [resolveImage, resolveImageF, tryBody, h1, ho, hoi,
          afterChain, genericPlaceholder, create_placeholder_image]⟩
      · simp [objBytesOf, ho, hoi] at h2

/-- Application of `resolveImage_fallback_order` at a concrete input: a
descriptor-less markdown entry with a non-empty pool consumes the pool head
(residual pool reuse with no bounding box present). -/
theorem resolveImage_fallback_order_app :
    resolveImage ['i'] ⟨none, ['i', '.', 'j'], false, none⟩ [(['p'], ['q'])] =
      (.saved ⟨['i'], ['i', '.', 'j'], .copied ['p'] ['q'], .fromExtractedPdfImage⟩, []) :=
  (resolveImage_fallback_order ['i'] ⟨none, ['i', '.', 'j'], false, none⟩
    [(['p'], ['q'])]).2.2.1 (['p'], ['q']) [] rfl rfl rfl

/-- C2: a descriptor carrying valid inline base64 data resolves by decoding
and persisting exactly those bytes, with disposition from-inline-data; no
later fallback step runs and the pool is untouched. -/
theorem resolveImage_inline_data (d : ImageObject) (pool : Pool) (s : List Char)
    (bs : List Nat) (h1 : d.image_base64 = some s) (h2 : b64Decode s = some bs) :
    resolveImage d.id (pass2Info d) pool =
      (.saved ⟨d.id, (pass2Info d).filename, .raw bs, .fromInlineData⟩, pool) := by
  have hd : (pass2Info d).data = some s := by
    simp [pass2Info, h1]
  simp [resolveImage, resolveImageF, tryBody, hd, h2]

/-- Witness for C2 at a concrete descriptor: inline data `"aGk="` decodes to
the bytes of `"hi"`. -/
theorem resolveImage_inline_data_app :
    resolveImage ['i'] (pass2Info ⟨['i'], some ['a', 'G', 'k', '='], none, .absent, none⟩) [] =
      (.saved ⟨['i'],
        (pass2Info ⟨['i'], some ['a', 'G', 'k', '='], none, .absent, none⟩).filename,
        .raw [104, 105], .fromInlineData⟩, []) :=
  resolveImage_inline_data ⟨['i'], some ['a', 'G', 'k', '='], none, .absent, none⟩ []
    ['a', 'G', 'k', '='] [104, 105] rfl (by decide)

/-- C5 (amended): a descriptor with a bounding box, no inline data, and no
`image` attribute at all in its in-memory representation, resolved while the
pool is empty, synthesizes a placeholder clamped to
`max(100, min(800, extent))` on each axis.  (When the probed `image`
attribute is present but non-bytes, Method 2's elif swallows the descriptor
and the generic placeholder is produced instead — see the counterexample.) -/
theorem resolveImage_bbox_empty_pool (d : ImageObject) (bb : BBox)
    (h1 : d.image_base64 = none) (h2 : d.dataAttr = none)
    (h3 : d.objImage = .absent) (h4 : d.bbox = some bb) :
    resolveImage d.id (pass2Info d) [] =
      (.saved ⟨d.id, (pass2Info d).filename,
        .placeholder d.id (clampDim (bb.brx - bb.tlx)) (clampDim (bb.bry - bb.tly)),
        .synthesizedPlaceholder⟩, []) := by
  have hd : (pass2Info d).data = none := by
    simp [pass2Info, h1, h2]
  have ho : (pass2Info d).image_object = some d := by
    simp [pass2Info]
  simp [resolveImage, resolveImageF, tryBody, hd, ho, h3, h4, bboxBranch,
    bboxPlaceholder, create_placeholder_image]

/-- Witness for C5: a 500x1400 box clamps to 500x800. -/
theorem resolveImage_bbox_empty_pool_app :
    resolveImage ['i'] (pass2Info ⟨['i'], none, none, .absent, some ⟨10, 20, 510, 1420⟩⟩) [] =
      (.saved ⟨['i'],
        (pass2Info ⟨['i'], none, none, .absent, some ⟨10, 20, 510, 1420⟩⟩).filename,
        .placeholder ['i'] (clampDim (510 - 10)) (clampDim (1420 - 20)),
        .synthesizedPlaceholder⟩, []) :=
  resolveImage_bbox_empty_pool ⟨['i'], none, none, .absent, some ⟨10, 20, 510, 1420⟩⟩
    ⟨10, 20, 510, 1420⟩ rfl rfl rfl rfl

/-- C5 counterexample: a descriptor carrying a 500x500 bounding box and no
inline/object data, but whose probed `image` attribute is present and
non-bytes, is swallowed by Method 2's elif chain: with an empty pool the
generic 400x300 placeholder is written, not the claimed 500x500 clamp of its
box. -/
theorem resolveImage_bbox_nonbytes_counterexample :
    resolveImage "i".toList
      (pass2Info ⟨"i".toList, none, none, .nonBytes, some ⟨0, 0, 500, 500⟩⟩) [] =
      (.saved ⟨"i".toList, "i.jpeg".toList, .placeholder "i".toList 400 300,
        .synthesizedPlaceholder⟩, []) ∧
    clampDim (500 - 0) = 500 ∧
    SavedBytes.placeholder "i".toList 400 300 ≠
      SavedBytes.placeholder "i".toList (clampDim (500 - 0)) (clampDim (500 - 0)) :=
  ⟨by decide, by decide, by decide⟩

/-- C3: over the whole save loop, the consumed pool entries are exactly an
initial segment of the pool, one entry per pool-based resolution (so the pool
strictly shrinks by exactly one entry each time, to the corresponding
suffix), and when the pool has no duplicate entries no entry is consumed for
two different identifiers. -/
theorem resolveAll_pool_consumption (fails : Nat → FailSite → Bool)
    (imgs : List (List Char × ImgInfo)) (pool : Pool) :
    (resolveAllF fails imgs pool).2 =
      pool.drop (consumedList (resolveAllF fails imgs pool).1).length ∧
    consumedList (resolveAllF fails imgs pool).1 =
      pool.take (consumedList (resolveAllF fails imgs pool).1).length ∧
    (consumedList (resolveAllF fails imgs pool).1).length =
      (resolveAllF fails imgs pool).1.countP
        (fun o => decide (dispOf o = some Disposition.fromExtractedPdfImage)) ∧
    (pool.Nodup → (consumedList (resolveAllF fails imgs pool).1).Nodup) := by
  rcases resolveAllF_pool_core imgs fails pool with ⟨h1, h2, h3⟩
  refine ⟨h1, h2, h3, fun hnd => ?_⟩
  rw [h2]
  exact hnd.sublist (List.take_sublist _ _)

/-- Application of `resolveAll_pool_consumption` to a concrete two-image run
against a three-entry pool: exactly the first two entries are consumed. -/
theorem resolveAll_pool_consumption_app :
    consumedList (resolveAllF (fun _ _ => false)
      [(['a'], ⟨none, ['a'], false, none⟩), (['b'], ⟨none, ['b'], false, none⟩)]
      [(['p'], ['1']), (['q'], ['2']), (['r'], ['3'])]).1 =
      List.take (consumedList (resolveAllF (fun _ _ => false)
        [(['a'], ⟨none, ['a'], false, none⟩), (['b'], ⟨none, ['b'], false, none⟩)]
        [(['p'], ['1']), (['q'], ['2']), (['r'], ['3'])]).1).length
        [(['p'], ['1']), (['q'], ['2']), (['r'], ['3'])] :=
  (resolveAll_pool_consumption (fun _ _ => false)
    [(['a'], ⟨none, ['a'], false, none⟩), (['b'], ⟨none, ['b'], false, none⟩)]
    [(['p'], ['1']), (['q'], ['2']), (['r'], ['3'])]).2.1

/-- C9: failure containment of the save loop.  A resolution outcome is
`skipped` only when the final fallback placeholder write itself fails; when
that write works, every image ends with some bytes persisted; an exception
anywhere in the try body (steps 1-4) degrades to the generic synthesized
placeholder, with the pool left unchanged; and the loop always processes
every image of the document, whatever the failure oracle injects. -/
theorem resolveImageF_failure_containment (f : FailSite → Bool) (imgId : List Char)
    (info : ImgInfo) (pool : Pool) (batch : Nat → FailSite → Bool)
    (imgs : List (List Char × ImgInfo)) (bpool : Pool) :
    ((∃ i, (resolveImageF f imgId info pool).1 = .skipped i) →
      f .writeFallbackPlaceholder = true) ∧
    (f .writeFallbackPlaceholder = false →
      ∃ r, (resolveImageF f imgId info pool).1 = .saved r) ∧
    (tryBody f imgId info pool = .error () → f .writeFallbackPlaceholder = false →
      resolveImageF f imgId info pool =
        (.saved ⟨imgId, info.filename, .placeholder imgId 400 300,
          .synthesizedPlaceholder⟩, pool)) ∧
    (resolveAllF batch imgs bpool).1.length = imgs.length := by
  refine ⟨?_, ?_, ?_, ?_⟩
  · rintro ⟨i, hi⟩
    rcases ht : tryBody f imgId info pool with _ | p
    · by_cases hf : f .writeFallbackPlaceholder
      · exact hf
      · have e1 : resolveImageF f imgId info pool =
            (.saved ⟨imgId, info.filename, .placeholder imgId 400 300,
              .synthesizedPlaceholder⟩, pool) := by
          simp [resolveImageF, ht, hf, create_placeholder_image]
        rw [e1] at hi
        simp at hi
    · have e1 : (resolveImageF f imgId info pool).1 =
          .saved ⟨imgId, info.filename, p.1.1, p.1.2⟩ := by
        simp [resolveImageF, ht]
      rw [e1] at hi
      simp at hi
  · intro hf
    rcases ht : tryBody f imgId info pool with _ | p
    · refine ⟨⟨imgId, info.filename, .placeholder imgId 400 300, .synthesizedPlaceholder⟩, ?_⟩
      simp [resolveImageF, ht, hf, create_placeholder_image]
    · refine ⟨⟨imgId, info.filename, p.1.1, p.1.2⟩, ?_⟩
      simp [resolveImageF, ht]
  · intro ht hf
    simp [resolveImageF, ht, hf, create_placeholder_image]
  · induction imgs generalizing batch bpool with
    | nil => simp [resolveAllF]
    | cons kv rest ih =>
        have e1 : resolveAllF batch (kv :: rest) bpool =
            ((resolveImageF (batch 0) kv.1 kv.2 bpool).1 ::
              (resolveAllF (fun n => batch (n + 1)) rest
                (resolveImageF (batch 0) kv.1 kv.2 bpool).2).1,
             (resolveAllF (fun n => batch (n + 1)) rest
                (resolveImageF (batch 0) kv.1 kv.2 bpool).2).2) := rfl
        rw [e1]
        simp [ih]

/-- Application of `resolveImageF_failure_containment`: a failed inline write
on a concrete descriptor still ends with the fallback placeholder saved. -/
theorem resolveImageF_failure_containment_app :
    resolveImageF (fun site => decide (site = .writeInline)) ['i']
      ⟨some ['a', 'G', 'k', '='], ['i'], true, none⟩ [] =
      (.saved ⟨['i'], ['i'], .placeholder ['i'] 400 300, .synthesizedPlaceholder⟩, []) :=
  (resolveImageF_failure_containment (fun site => decide (site = .writeInline)) ['i']
    ⟨some ['a', 'G', 'k', '='], ['i'], true, none⟩ [] (fun _ _ => false) [] []).2.2.1
    rfl rfl

/-- Every outcome is about the identifier that was being resolved. -/
theorem resolveImageF_outId (f : FailSite → Bool) (imgId : List Char) (info : ImgInfo)
    (pool : Pool) : outId (resolveImageF f imgId info pool).1 = imgId := by
  rcases ht : tryBody f imgId info pool with _ | p
  · by_cases hf : f .writeFallbackPlaceholder <;> simp [resolveImageF, ht, hf, outId]
  · simp [resolveImageF, ht, outId]

theorem resolveAllF_map_outId (imgs : List (List Char × ImgInfo)) :
    ∀ (fails : Nat → FailSite → Bool) (pool : Pool),
    (resolveAllF fails imgs pool).1.map outId = imgs.map (fun kv => kv.1) := by
  induction imgs with
  | nil =>
      intro fails pool
      simp [resolveAllF]
  | cons kv rest ih =>
      intro fails pool
      have e1 : resolveAllF fails (kv :: rest) pool =
          ((resolveImageF (fails 0) kv.1 kv.2 pool).1 ::
            (resolveAllF (fun n => fails (n + 1)) rest
              (resolveImageF (fails 0) kv.1 kv.2 pool).2).1,
           (resolveAllF (fun n => fails (n + 1)) rest
              (resolveImageF (fails 0) kv.1 kv.2 pool).2).2) := rfl
      rw [e1]
      simp [resolveImageF_outId, ih]

/-- The key list is unchanged by replacing the value stored at a key. -/
theorem replaceValue_keys (xs : List (List Char × ImgInfo)) (key : List Char) (v : ImgInfo) :
    (xs.map (fun kv => if kv.1 = key then (key, v) else kv)).map (fun kv => kv.1) =
      xs.map (fun kv => kv.1) := by
  induction xs with
  | nil => rfl
  | cons kv rest ih =>
      by_cases hk : kv.1 = key
      · simp [hk, ih]
      · simp [hk, ih]

/-- `upsert` keeps the key list, appending the key only when it is new. -/
theorem upsert_keys (xs : List (List Char × ImgInfo)) (key : List Char) (v : ImgInfo) :
    (upsert xs key v).map (fun kv => kv.1) =
      if key ∈ xs.map (fun kv => kv.1) then xs.map (fun kv => kv.1)
      else xs.map (fun kv => kv.1) ++ [key] := by
  unfold upsert
  by_cases hm : key ∈ xs.map (fun kv => kv.1)
  · simp only [hm, if_true]
    exact replaceValue_keys xs key v
  · simp [hm]


/-- Replacing the value at `key` preserves lookup at every other key. -/
theorem replaceValue_lookup_ne (xs : List (List Char × ImgInfo)) (key : List Char)
    (v : ImgInfo) (q : List Char) (hne : key ≠ q) :
    lookupKey (xs.map (fun kv => if kv.1 = key then (key, v) else kv)) q = lookupKey xs q := by
  induction xs with
  | nil => rfl
  | cons kv rest ih =>
      have hkq : ¬key = q := hne
      by_cases hk : kv.1 = key
      · have hkvq : ¬kv.1 = q := by
          rw [hk]
          exact hkq
        simp only [List.map_cons, if_pos hk, lookupKey, hkq, if_false, hkvq, ih]
      · by_cases hq : kv.1 = q
        · simp only [List.map_cons, if_neg hk, lookupKey, if_pos hq]
        · simp only [List.map_cons, if_neg hk, lookupKey, if_neg hq, ih]

/-- Appending a differently-keyed entry preserves lookup. -/
theorem appendEntry_lookup_ne (xs : List (List Char × ImgInfo)) (key : List Char)
    (v : ImgInfo) (q : List Char) (hne : key ≠ q) :
    lookupKey (xs ++ [(key, v)]) q = lookupKey xs q := by
  induction xs with
  | nil => simp [lookupKey, hne]
  | cons kv rest ih =>
      by_cases hq : kv.1 = q
      · simp [lookupKey, hq]
      · simp [lookupKey, hq, ih]

/-- `upsert` preserves lookup at every other key. -/
theorem upsert_lookup_ne (xs : List (List Char × ImgInfo)) (key : List Char) (v : ImgInfo)
    (q : List Char) (hne : key ≠ q) : lookupKey (upsert xs key v) q = lookupKey xs q := by
  unfold upsert
  by_cases hm : key ∈ xs.map (fun kv => kv.1)
  · simp only [hm, if_true]
    exact replaceValue_lookup_ne xs key v q hne
  · simp only [hm, if_false]
    exact appendEntry_lookup_ne xs key v q hne

/-- Keys present after folding the second pass over a list of descriptors. -/
theorem pass2Imgs_keys_mem (ds : List ImageObject) :
    ∀ (xs : List (List Char × ImgInfo)) (k : List Char),
    (k ∈ (ds.foldl pass2Img xs).map (fun kv => kv.1)) ↔
      k ∈ xs.map (fun kv => kv.1) ∨ ∃ d ∈ ds, d.id = k := by
  induction ds with
  | nil =>
      intro xs k
      constructor
      · exact fun h => Or.inl h
      · rintro (h | ⟨d, hd, hk⟩)
        · exact h
        · cases hd
  | cons d rest ih =>
      intro xs k
      have e1 : (d :: rest).foldl pass2Img xs = rest.foldl pass2Img (pass2Img xs d) := rfl
      rw [e1, ih]
      unfold pass2Img
      rw [upsert_keys]
      by_cases hm : d.id ∈ xs.map (fun kv => kv.1)
      · simp only [hm, if_true]
        constructor
        · rintro (h | ⟨d2, hd2, hk⟩)
          · exact Or.inl h
          · exact Or.inr ⟨d2, List.mem_cons_of_mem d hd2, hk⟩
        · rintro (h | ⟨d2, hd2, hk⟩)
          · exact Or.inl h
          · rcases List.mem_cons.mp hd2 with h2 | h2
            · subst h2
              subst hk
              exact Or.inl hm
            · exact Or.inr ⟨d2, h2, hk⟩
      · simp only [hm, if_false]
        constructor
        · rintro (h | ⟨d2, hd2, hk⟩)
          · rcases List.mem_append.mp h with h2 | h2
            · exact Or.inl h2
            · have h3 : k = d.id := by simpa using h2
              exact Or.inr ⟨d, List.mem_cons_self d rest, h3.symm⟩
          · exact Or.inr ⟨d2, List.mem_cons_of_mem d hd2, hk⟩
        · rintro (h | ⟨d2, hd2, hk⟩)
          · exact Or.inl (List.mem_append.mpr (Or.inl h))
          · rcases List.mem_cons.mp hd2 with h2 | h2
            · subst h2
              subst hk
              exact Or.inl (List.mem_append.mpr (Or.inr (by simp)))
            · exact Or.inr ⟨d2, h2, hk⟩

/-- The second pass preserves key-list uniqueness. -/
theorem pass2Imgs_nodup (ds : List ImageObject) :
    ∀ (xs : List (List Char × ImgInfo)),
    (xs.map (fun kv => kv.1)).Nodup → ((ds.foldl pass2Img xs).map (fun kv => kv.1)).Nodup := by
  induction ds with
  | nil => intro xs h; exact h
  | cons d rest ih =>
      intro xs h
      have e1 : (d :: rest).foldl pass2Img xs = rest.foldl pass2Img (pass2Img xs d) := rfl
      rw [e1]
      apply ih
      unfold pass2Img
      rw [upsert_keys]
      by_cases hm : d.id ∈ xs.map (fun kv => kv.1)
      · simpa [hm] using h
      · simp only [hm, if_false]
        rw [List.nodup_append]
        refine ⟨h, List.nodup_singleton _, ?_⟩
        intro a ha hb
        have hb2 : a = d.id := by simpa using hb
        subst hb2
        exact hm ha

/-- The second pass does not touch entries whose key is no descriptor id. -/
theorem pass2Imgs_lookup_ne (ds : List ImageObject) :
    ∀ (xs : List (List Char × ImgInfo)) (q : List Char),
    (∀ d ∈ ds, d.id ≠ q) → lookupKey (ds.foldl pass2Img xs) q = lookupKey xs q := by
  induction ds with
  | nil => intro xs q _; rfl
  | cons d rest ih =>
      intro xs q hne
      have e1 : (d :: rest).foldl pass2Img xs = rest.foldl pass2Img (pass2Img xs d) := rfl
      rw [e1, ih _ _ (fun d2 h2 => hne d2 (List.mem_cons_of_mem _ h2))]
      exact upsert_lookup_ne xs d.id (pass2Info d) q (hne d (List.mem_cons_self d rest))


theorem pass1Step_inv (st : List (List Char) × List (List Char × ImgInfo))
    (r : List Char × List Char) (h : P1Inv st) : P1Inv (pass1Step st r) := by
  rcases h with ⟨hk, hnd, hshape⟩
  unfold pass1Step
  by_cases hm : splitextBase r.2 ∈ st.1
  · simpa [hm] using ⟨hk, hnd, hshape⟩
  · simp only [hm, if_false]
    refine ⟨by simp [hk], ?_, ?_⟩
    · rw [List.nodup_append]
      refine ⟨hnd, List.nodup_singleton _, ?_⟩
      intro a ha hb
      have hb2 : a = splitextBase r.2 := by simpa using hb
      subst hb2
      exact hm ha
    · intro kv hkv
      rcases List.mem_append.mp hkv with h2 | h2
      · exact hshape kv h2
      · have h3 : kv = (splitextBase r.2, mdInfo (splitextBase r.2)) := by simpa using h2
        subst h3
        rfl

theorem pass1Step_mem (st : List (List Char) × List (List Char × ImgInfo))
    (r : List Char × List Char) (k : List Char) :
    k ∈ (pass1Step st r).1 ↔ k ∈ st.1 ∨ k = splitextBase r.2 := by
  unfold pass1Step
  by_cases hm : splitextBase r.2 ∈ st.1
  · simp only [hm, if_true]
    constructor
    · exact fun h => Or.inl h
    · rintro (h | h)
      · exact h
      · subst h
        exact hm
  · simp [hm]

theorem pass1Refs_inv (refs : List (List Char × List Char)) :
    ∀ st, P1Inv st → P1Inv (refs.foldl pass1Step st) := by
  induction refs with
  | nil => exact fun st h => h
  | cons r rest ih => exact fun st h => ih (pass1Step st r) (pass1Step_inv st r h)

theorem pass1Refs_mem (refs : List (List Char × List Char)) :
    ∀ st (k : List Char), k ∈ (refs.foldl pass1Step st).1 ↔
      k ∈ st.1 ∨ ∃ r ∈ refs, splitextBase r.2 = k := by
  induction refs with
  | nil =>
      intro st k
      constructor
      · exact fun h => Or.inl h
      · rintro (h | ⟨r, hr, _⟩)
        · exact h
        · cases hr
  | cons r rest ih =>
      intro st k
      have e1 : (r :: rest).foldl pass1Step st = rest.foldl pass1Step (pass1Step st r) := rfl
      rw [e1, ih, pass1Step_mem]
      constructor
      · rintro ((h | h) | ⟨r2, hr2, hk⟩)
        · exact Or.inl h
        · exact Or.inr ⟨r, List.mem_cons_self r rest, h.symm⟩
        · exact Or.inr ⟨r2, List.mem_cons_of_mem r hr2, hk⟩
      · rintro (h | ⟨r2, hr2, hk⟩)
        · exact Or.inl (Or.inl h)
        · rcases List.mem_cons.mp hr2 with h2 | h2
          · subst h2
            exact Or.inl (Or.inr hk.symm)
          · exact Or.inr ⟨r2, h2, hk⟩

theorem pass1Pages_inv (pages : List PageModel) :
    ∀ st, P1Inv st → P1Inv (pages.foldl (fun st p => pass1Page st p.markdown) st) := by
  induction pages with
  | nil => exact fun st h => h
  | cons p rest ih =>
      exact fun st h => ih (pass1Page st p.markdown) (pass1Refs_inv (findRefs p.markdown) st h)

theorem pass1Pages_mem (pages : List PageModel) :
    ∀ st (k : List Char),
      k ∈ (pages.foldl (fun st p => pass1Page st p.markdown) st).1 ↔
      k ∈ st.1 ∨ ∃ p ∈ pages, ∃ r ∈ findRefs p.markdown, splitextBase r.2 = k := by
  induction pages with
  | nil =>
      intro st k
      constructor
      · exact fun h => Or.inl h
      · rintro (h | ⟨p, hp, _⟩)
        · exact h
        · cases hp
  | cons p rest ih =>
      intro st k
      have e1 : (p :: rest).foldl (fun st p => pass1Page st p.markdown) st =
          rest.foldl (fun st p => pass1Page st p.markdown) (pass1Page st p.markdown) := rfl
      rw [e1, ih]
      unfold pass1Page
      rw [pass1Refs_mem]
      constructor
      · rintro ((h | ⟨r, hr, hk⟩) | ⟨p2, hp2, hrest⟩)
        · exact Or.inl h
        · exact Or.inr ⟨p, List.mem_cons_self p rest, r, hr, hk⟩
        · exact Or.inr ⟨p2, List.mem_cons_of_mem p hp2, hrest⟩
      · rintro (h | ⟨p2, hp2, hrest⟩)
        · exact Or.inl (Or.inl h)
        · rcases List.mem_cons.mp hp2 with h2 | h2
          · subst h2
            exact Or.inl (Or.inr hrest)
          · exact Or.inr ⟨p2, h2, hrest⟩

theorem pass1All_inv (pages : List PageModel) : P1Inv (pass1All pages) :=
  pass1Pages_inv pages ([], []) ⟨rfl, List.nodup_nil, by intro kv h; cases h⟩

theorem pass1All_mem (pages : List PageModel) (k : List Char) :
    k ∈ (pass1All pages).1 ↔
      ∃ p ∈ pages, ∃ r ∈ findRefs p.markdown, splitextBase r.2 = k := by
  rw [pass1All, pass1Pages_mem]
  constructor
  · rintro (h | h)
    · cases h
    · exact h
  · exact fun h => Or.inr h

/-- In a list whose entries all have the markdown shape, lookup at a present
key returns exactly the markdown entry. -/
theorem lookup_of_shape (xs : List (List Char × ImgInfo)) (k : List Char)
    (hshape : ∀ kv ∈ xs, kv.2 = mdInfo kv.1) (hmem : k ∈ xs.map (fun kv => kv.1)) :
    lookupKey xs k = some (mdInfo k) := by
  induction xs with
  | nil => cases hmem
  | cons kv rest ih =>
      by_cases hk : kv.1 = k
      · have h2 : kv.2 = mdInfo kv.1 := hshape kv (List.mem_cons_self kv rest)
        simp [lookupKey, h2, hk]
      · have hmem2 : k ∈ rest.map (fun kv => kv.1) := by
          rcases List.mem_map.mp hmem with ⟨kv2, hkv2, hkk⟩
          rcases List.mem_cons.mp hkv2 with h2 | h2
          · subst h2
            exact absurd hkk hk
          · exact List.mem_map.mpr ⟨kv2, h2, hkk⟩
        simp [lookupKey, hk]
        exact ih (fun kv2 h2 => hshape kv2 (List.mem_cons_of_mem kv h2)) hmem2

theorem pass2Pages_keys_mem (pages : List PageModel) :
    ∀ (xs : List (List Char × ImgInfo)) (k : List Char),
    (k ∈ (pass2All pages xs).map (fun kv => kv.1)) ↔
      k ∈ xs.map (fun kv => kv.1) ∨ ∃ p ∈ pages, ∃ d ∈ p.images, d.id = k := by
  induction pages with
  | nil =>
      intro xs k
      constructor
      · exact fun h => Or.inl h
      · rintro (h | ⟨p, hp, _⟩)
        · exact h
        · cases hp
  | cons p rest ih =>
      intro xs k
      have e1 : pass2All (p :: rest) xs = pass2All rest (p.images.foldl pass2Img xs) := rfl
      rw [e1, ih, pass2Imgs_keys_mem]
      constructor
      · rintro ((h | ⟨d, hd, hk⟩) | ⟨p2, hp2, hrest⟩)
        · exact Or.inl h
        · exact Or.inr ⟨p, List.mem_cons_self p rest, d, hd, hk⟩
        · exact Or.inr ⟨p2, List.mem_cons_of_mem p hp2, hrest⟩
      · rintro (h | ⟨p2, hp2, hrest⟩)
        · exact Or.inl (Or.inl h)
        · rcases List.mem_cons.mp hp2 with h2 | h2
          · subst h2
            exact Or.inl (Or.inr hrest)
          · exact Or.inr ⟨p2, h2, hrest⟩

theorem pass2Pages_nodup (pages : List PageModel) :
    ∀ (xs : List (List Char × ImgInfo)),
    (xs.map (fun kv => kv.1)).Nodup → ((pass2All pages xs).map (fun kv => kv.1)).Nodup := by
  induction pages with
  | nil => exact fun xs h => h
  | cons p rest ih =>
      exact fun xs h => ih (p.images.foldl pass2Img xs) (pass2Imgs_nodup p.images xs h)

theorem pass2Pages_lookup_ne (pages : List PageModel) :
    ∀ (xs : List (List Char × ImgInfo)) (q : List Char),
    (∀ p ∈ pages, ∀ d ∈ p.images, d.id ≠ q) →
    lookupKey (pass2All pages xs) q = lookupKey xs q := by
  induction pages with
  | nil => intro xs q _; rfl
  | cons p rest ih =>
      intro xs q hne
      have e1 : pass2All (p :: rest) xs = pass2All rest (p.images.foldl pass2Img xs) := rfl
      rw [e1, ih _ _ (fun p2 h2 => hne p2 (List.mem_cons_of_mem p h2))]
      exact pass2Imgs_lookup_ne p.images xs q (hne p (List.mem_cons_self p rest))

/-- C4: the `images` mapping built by the two discovery passes has pairwise
distinct identifiers; an identifier is present exactly when it is the
extension-stripped target of some markdown image reference or the id of some
page's image descriptor; and the save loop produces exactly one outcome per
identifier, in order.  So each unique identifier is resolved exactly once. -/
theorem buildImages_unique_resolution (pages : List PageModel)
    (fails : Nat → FailSite → Bool) (pool : Pool) :
    ((buildImages pages).map (fun kv => kv.1)).Nodup ∧
    (∀ k, k ∈ (buildImages pages).map (fun kv => kv.1) ↔
      (∃ p ∈ pages, ∃ r ∈ findRefs p.markdown, splitextBase r.2 = k) ∨
      (∃ p ∈ pages, ∃ d ∈ p.images, d.id = k)) ∧
    (resolveAllF fails (buildImages pages) pool).1.map outId =
      (buildImages pages).map (fun kv => kv.1) := by
  rcases pass1All_inv pages with ⟨hkeys, hnd, hshape⟩
  refine ⟨?_, ?_, ?_⟩
  · exact pass2Pages_nodup pages (pass1All pages).2 (hkeys ▸ hnd)
  · intro k
    rw [buildImages, pass2Pages_keys_mem, ← hkeys, pass1All_mem]
  · exact resolveAllF_map_outId (buildImages pages) fails pool

/-- Application of `buildImages_unique_resolution` to one concrete page. -/
theorem buildImages_unique_resolution_app :
    ((buildImages [⟨"![x](im1.jpeg) ![y](im2)".toList, []⟩]).map (fun kv => kv.1)).Nodup :=
  (buildImages_unique_resolution [⟨"![x](im1.jpeg) ![y](im2)".toList, []⟩]
    (fun _ _ => false) []).1

/-- C10: an identifier appearing only in markdown (its extension-stripped
base is no page's descriptor id) is keyed by that stripped base, carries the
markdown-pass entry (no data, filename `<base>.jpeg`, no descriptor), and
with an empty pool resolves to the generic synthesized placeholder at the
default 400x300 dimensions. -/
theorem markdown_only_id_generic_placeholder (pages : List PageModel) (base : List Char)
    (h1 : ∃ p ∈ pages, ∃ r ∈ findRefs p.markdown, splitextBase r.2 = base)
    (h2 : ∀ p ∈ pages, ∀ d ∈ p.images, d.id ≠ base) :
    lookupKey (buildImages pages) base = some (mdInfo base) ∧
    resolveImage base (mdInfo base) [] =
      (.saved ⟨base, base ++ ('.' :: ['j', 'p', 'e', 'g']), .placeholder base 400 300,
        .synthesizedPlaceholder⟩, []) := by
  rcases pass1All_inv pages with ⟨hkeys, hnd, hshape⟩
  constructor
  · rw [buildImages, pass2Pages_lookup_ne pages (pass1All pages).2 base h2]
    apply lookup_of_shape (pass1All pages).2 base hshape
    rw [← hkeys]
    exact (pass1All_mem pages base).mpr h1
  · simp [resolveImage, resolveImageF, tryBody, mdInfo, afterChain, genericPlaceholder,
      create_placeholder_image]

/-- Witness for C10: `img1.png` referenced only in markdown resolves under
the key `img1` to the generic 400x300 placeholder. -/
theorem markdown_only_id_generic_placeholder_app :
    lookupKey (buildImages [⟨"![x](img1.png)".toList, []⟩]) "img1".toList =
      some (mdInfo "img1".toList) ∧
    resolveImage "img1".toList (mdInfo "img1".toList) [] =
      (.saved ⟨"img1".toList, "img1".toList ++ ('.' :: ['j', 'p', 'e', 'g']),
        .placeholder "img1".toList 400 300, .synthesizedPlaceholder⟩, []) :=
  markdown_only_id_generic_placeholder [⟨"![x](img1.png)".toList, []⟩] "img1".toList
    (by decide) (by decide)

theorem scanSub_rest_lt (id : List Char) :
    ∀ (s : List Char) (p : List Char × List Char), scanSub id s = some p →
      p.2.length < s.length := by
  intro s
  induction s with
  | nil => intro p h; cases h
  | cons a cs ih =>
      intro p h
      unfold scanSub at h
      by_cases hpre : (']' :: '(' :: (id ++ [')'])).isPrefixOf (a :: cs) = true
      · rw [if_pos hpre] at h
        have h2 : p.2 = (a :: cs).drop (id.length + 3) := by
          cases h
          rfl
        rw [h2, List.length_drop]
        simp
        omega
      · rw [if_neg hpre] at h
        by_cases hn : a = '\n'
        · rw [if_pos hn] at h
          cases h
        · rw [if_neg hn] at h
          rcases Option.map_eq_some'.mp h with ⟨q, hq, hpq⟩
          have := ih q hq
          subst hpq
          simp
          omega

theorem matchSubAt_rest_lt (id : List Char) (s : List Char) (p : List Char × List Char)
    (h : matchSubAt id s = some p) : p.2.length < s.length := by
  match s with
  | [] => cases h
  | [a] => cases h
  | a :: b :: cs =>
      simp only [matchSubAt] at h
      by_cases hab : a = '!' ∧ b = '['
      · rw [if_pos hab] at h
        have := scanSub_rest_lt id cs p h
        simp
        omega
      · rw [if_neg hab] at h
        cases h

/-- The result of `re.sub` scanning does not depend on the fuel, as long as
the fuel covers the string length. -/
theorem reSubGo_congr (id : List Char) (items : List TItem) :
    ∀ (f1 : Nat), ∀ (f2 : Nat) (s : List Char), s.length ≤ f1 → s.length ≤ f2 →
      reSubGo id items f1 s = reSubGo id items f2 s := by
  intro f1
  induction f1 with
  | zero =>
      intro f2 s h1 h2
      have : s = [] := List.length_eq_zero.mp (Nat.le_zero.mp h1)
      subst this
      cases f2 <;> rfl
  | succ n ih =>
      intro f2 s h1 h2
      cases s with
      | nil => cases f2 <;> rfl
      | cons c cs =>
          cases f2 with
          | zero => simp at h2
          | succ m =>
              rcases hm : matchSubAt id (c :: cs) with _ | p
              · have hlen : cs.length ≤ n := by
                  simp at h1
                  omega
                have hlen2 : cs.length ≤ m := by
                  simp at h2
                  omega
                simp [reSubGo, hm, ih m cs hlen hlen2]
              · have hlt := matchSubAt_rest_lt id (c :: cs) p hm
                have hlen : p.2.length ≤ n := by
                  simp at hlt h1
                  omega
                have hlen2 : p.2.length ≤ m := by
                  simp at hlt h2
                  omega
                simp [reSubGo, hm, ih m p.2 hlen hlen2]

theorem reSubAllT_cons_noMatch (id : List Char) (items : List TItem) (c : Char)
    (cs : List Char) (h : matchSubAt id (c :: cs) = none) :
    reSubAllT id items (c :: cs) = c :: reSubAllT id items cs := by
  simp [reSubAllT, reSubGo, h]

theorem reSubAllT_cons_match (id : List Char) (items : List TItem) (c : Char)
    (cs : List Char) (p : List Char × List Char) (h : matchSubAt id (c :: cs) = some p) :
    reSubAllT id items (c :: cs) =
      expandItems items (matchText id p.1) ++ reSubAllT id items p.2 := by
  have hlt := matchSubAt_rest_lt id (c :: cs) p h
  have e1 : reSubAllT id items (c :: cs) =
      expandItems items (matchText id p.1) ++ reSubGo id items cs.length p.2 := by
    simp [reSubAllT, reSubGo, h]
  rw [e1]
  congr 1
  exact reSubGo_congr id items cs.length p.2.length p.2 (by simp at hlt; omega) le_rfl

theorem matchSubAt_cons_ne (id : List Char) (c : Char) (t : List Char) (hc : c ≠ '!') :
    matchSubAt id (c :: t) = none := by
  match t with
  | [] => rfl
  | b :: cs =>
      simp only [matchSubAt]
      rw [if_neg]
      intro hab
      exact hc hab.1

/-- The non-greedy run stops exactly at the closing `](` id `)` when the alt
text contains no newline and no `]`. -/
theorem scanSub_exact (id : List Char) :
    ∀ (alt rest : List Char), '\n' ∉ alt → ']' ∉ alt →
    scanSub id (alt ++ ']' :: '(' :: (id ++ ')' :: rest)) = some (alt, rest) := by
  intro alt
  induction alt with
  | nil =>
      intro rest hn hb
      have hL : (']' :: '(' :: (id ++ [')'])) ++ rest = ']' :: '(' :: (id ++ ')' :: rest) := by
        simp
      have hpre : (']' :: '(' :: (id ++ [')'])).isPrefixOf
          (']' :: '(' :: (id ++ ')' :: rest)) = true := by
        rw [List.isPrefixOf_iff_prefix, ← hL]
        exact List.prefix_append _ _
      have hlen : (']' :: '(' :: (id ++ [')'])).length = id.length + 3 := by
        simp
      have hdrop : (']' :: '(' :: (id ++ ')' :: rest)).drop (id.length + 3) = rest := by
        rw [← hL, ← hlen, List.drop_left]
      simp only [List.nil_append]
      unfold scanSub
      rw [if_pos hpre, hdrop]
  | cons a alt' ih =>
      intro rest hn hb
      have ha1 : a ≠ ']' := fun h => hb (h ▸ List.mem_cons_self a alt')
      have ha2 : a ≠ '\n' := fun h => hn (h ▸ List.mem_cons_self a alt')
      have hn' : '\n' ∉ alt' := fun h => hn (List.mem_cons_of_mem a h)
      have hb' : ']' ∉ alt' := fun h => hb (List.mem_cons_of_mem a h)
      have hpre : (']' :: '(' :: (id ++ [')'])).isPrefixOf
          (a :: (alt' ++ ']' :: '(' :: (id ++ ')' :: rest))) = false := by
        simp [List.isPrefixOf]
        intro h2
        exact absurd h2.symm ha1
      simp only [List.cons_append]
      unfold scanSub
      rw [if_neg (by simp [hpre]), if_neg ha2, ih rest hn' hb']
      rfl

theorem matchSubAt_matchText (id alt rest : List Char) (hn : '\n' ∉ alt) (hb : ']' ∉ alt) :
    matchSubAt id (matchText id alt ++ rest) = some (alt, rest) := by
  have hL : matchText id alt ++ rest =
      '!' :: '[' :: (alt ++ ']' :: '(' :: (id ++ ')' :: rest)) := by
    simp [matchText]
  rw [hL]
  have e2 : matchSubAt id ('!' :: '[' :: (alt ++ ']' :: '(' :: (id ++ ')' :: rest))) =
      scanSub id (alt ++ ']' :: '(' :: (id ++ ')' :: rest)) := by
    simp [matchSubAt]
  rw [e2]
  exact scanSub_exact id alt rest hn hb

/-- Any occurrence of the pattern that follows a `!`-free prefix is replaced
by the template expansion of the whole match, and scanning resumes after
it. -/
theorem reSubAllT_occurrence (id : List Char) (items : List TItem) (alt rest : List Char)
    (hn : '\n' ∉ alt) (hb : ']' ∉ alt) :
    ∀ (pre : List Char), '!' ∉ pre →
    reSubAllT id items (pre ++ matchText id alt ++ rest) =
      pre ++ expandItems items (matchText id alt) ++ reSubAllT id items rest := by
  intro pre
  induction pre with
  | nil =>
      intro _
      have hm : matchSubAt id (matchText id alt ++ rest) = some (alt, rest) :=
        matchSubAt_matchText id alt rest hn hb
      have hcons : matchText id alt ++ rest =
          '!' :: ('[' :: (alt ++ ']' :: '(' :: (id ++ ')' :: rest))) := by
        simp [matchText]
      rw [List.nil_append, hcons]
      rw [hcons] at hm
      rw [reSubAllT_cons_match id items _ _ (alt, rest) hm]
      simp

  | cons c pre' ih =>
      intro hpre
      have hc : c ≠ '!' := fun h => hpre (h ▸ List.mem_cons_self c pre')
      have hpre' : '!' ∉ pre' := fun h => hpre (List.mem_cons_of_mem c h)
      have e0 : (c :: pre') ++ matchText id alt ++ rest =
          c :: (pre' ++ matchText id alt ++ rest) := by
        simp
      rw [e0, reSubAllT_cons_noMatch id items c _
        (matchSubAt_cons_ne id c _ hc), ih hpre']
      simp

theorem parseTemplateGo_noBackslash :
    ∀ (fuel : Nat) (s : List Char), s.length ≤ fuel → '\\' ∉ s →
      parseTemplateGo fuel s = some (s.map .lit) := by
  intro fuel
  induction fuel with
  | zero =>
      intro s hl _
      have h0 : s = [] := List.length_eq_zero.mp (Nat.le_zero.mp hl)
      subst h0
      rfl
  | succ n ih =>
      intro s hl hb
      cases s with
      | nil => rfl
      | cons c rest =>
          have hc : c ≠ '\\' := fun h => hb (h ▸ List.mem_cons_self c rest)
          have hrest : '\\' ∉ rest := fun h => hb (List.mem_cons_of_mem c h)
          have hlen : rest.length ≤ n := by
            simp at hl
            omega
          simp only [parseTemplateGo]
          rw [if_pos hc, ih rest hlen hrest]
          rfl

theorem parseTemplate_noBackslash (t : List Char) (h : '\\' ∉ t) :
    parseTemplate t = some (t.map .lit) :=
  parseTemplateGo_noBackslash t.length t le_rfl h

theorem expandItems_map_lit (t m : List Char) : expandItems (t.map .lit) m = t := by
  induction t with
  | nil => rfl
  | cons c rest ih => simp [expandItems, ih]

theorem reSubGo_of_hasM_false (id : List Char) (items : List TItem) :
    ∀ (fuel : Nat) (s : List Char), hasM id s = false → reSubGo id items fuel s = s := by
  intro fuel
  induction fuel with
  | zero =>
      intro s _
      cases s <;> rfl
  | succ n ih =>
      intro s h
      cases s with
      | nil => rfl
      | cons c cs =>
          rcases hm : matchSubAt id (c :: cs) with _ | p
          · have h2 : hasM id cs = false := by
              simpa [hasM, hm] using h
            simp [reSubGo, hm, ih cs h2]
          · exfalso
            simp [hasM, hm] at h

theorem reSubAllT_of_hasM_false (id : List Char) (items : List TItem) (s : List Char)
    (h : hasM id s = false) : reSubAllT id items s = s :=
  reSubGo_of_hasM_false id items s.length s h

/-- A backslash in the replacement string can only come from the identifier,
the document stem or the filename. -/
theorem mkReplacement_backslash (k st fn : List Char) (h : '\\' ∈ mkReplacement k st fn) :
    '\\' ∈ k ∨ '\\' ∈ st ∨ '\\' ∈ fn := by
  unfold mkReplacement at h
  simp at h
  tauto

theorem reSub_of_hasM_false (id templ s : List Char) (ht : '\\' ∉ templ)
    (h : hasM id s = false) : reSub id templ s = some s := by
  unfold reSub
  rw [parseTemplate_noBackslash templ ht]
  simp [reSubAllT_of_hasM_false id _ s h]

theorem rewriteKey_of_unmatched (fileStem md : List Char) (kv : List Char × ImgInfo)
    (hk : '\\' ∉ kv.1) (hf : '\\' ∉ kv.2.filename) (hstem : '\\' ∉ fileStem)
    (h1 : hasM kv.1 md = false) (h2 : hasM (splitextBase kv.1) md = false) :
    rewriteKey fileStem md kv = some md := by
  have htem : '\\' ∉ mkReplacement kv.1 fileStem kv.2.filename := by
    intro h
    rcases mkReplacement_backslash _ _ _ h with h | h | h
    · exact hk h
    · exact hstem h
    · exact hf h
  unfold rewriteKey
  rw [reSub_of_hasM_false _ _ _ htem h1]
  exact reSub_of_hasM_false _ _ _ htem h2

/-- C6 counterexample: two concrete divergences from the claim.  First, with
Resolved Image identifier `img1.jpeg` (filename `img1.jpeg.jpeg`, stem `doc`)
and markdown `![x](img1)`, the reference equals the identifier's base form
and is rewritten, but the output's alt text is the full identifier
`img1.jpeg`, not the matched reference `img1` as the claim states.  Second,
with identifier `img1` (filename `img1.jpeg`) and markdown `![x](img1.png)`,
the reference with its extension stripped equals the identifier, so the claim
requires the occurrence to be rewritten, yet the code's literal patterns
match only the exact identifier or base form and the input passes through
unchanged. -/
theorem rewritePage_base_alt_counterexample :
    (rewritePage "doc".toList
        [("img1.jpeg".toList, ⟨none, "img1.jpeg.jpeg".toList, true, none⟩)]
        "![x](img1)".toList = some "![img1.jpeg](doc/img1.jpeg.jpeg)".toList ∧
      "![img1.jpeg](doc/img1.jpeg.jpeg)".toList ≠ "![img1](doc/img1.jpeg.jpeg)".toList) ∧
    (rewritePage "doc".toList
        [("img1".toList, ⟨none, "img1.jpeg".toList, false, none⟩)]
        "![x](img1.png)".toList = some "![x](img1.png)".toList ∧
      "![x](img1.png)".toList ≠ "![img1.png](doc/img1.jpeg)".toList) :=
  ⟨⟨by decide, by decide⟩, ⟨by decide, by decide⟩⟩

/-- C6 (amended): matching is by exact string equality — an occurrence
`![alt](ref)` is rewritten when `ref` equals exactly the identifier or
exactly its extension-stripped base form (a `ref` matching only after
stripping `ref`'s own extension is left unchanged) — and the replacement is
`![identifier](<stem>/<filename>)`: the alt text becomes the full identifier,
not the matched reference.  Stated here for each of the loop's two patterns
(full id and base id) at the single-substitution level, end-to-end through
`rewriteKey` for both reference forms, and at the claim's own concrete
instance (identifier `img1`, filename `img1.jpeg`, stem `doc`, markdown
`![x](img1)` rewriting to `![img1](doc/img1.jpeg)`). -/
theorem rewritePage_occurrence_rewrite (key stem : List Char) (info : ImgInfo)
    (pre alt rest : List Char) (hpre : '!' ∉ pre) (hn : '\n' ∉ alt) (hb : ']' ∉ alt)
    (hbk : '\\' ∉ key) (hbs : '\\' ∉ stem) (hbf : '\\' ∉ info.filename) :
    (reSubAllT key ((mkReplacement key stem info.filename).map .lit)
        (pre ++ matchText key alt ++ rest) =
      pre ++ mkReplacement key stem info.filename ++
        reSubAllT key ((mkReplacement key stem info.filename).map .lit) rest) ∧
    (reSubAllT (splitextBase key) ((mkReplacement key stem info.filename).map .lit)
        (pre ++ matchText (splitextBase key) alt ++ rest) =
      pre ++ mkReplacement key stem info.filename ++
        reSubAllT (splitextBase key)
          ((mkReplacement key stem info.filename).map .lit) rest) ∧
    (hasM key (pre ++ matchText (splitextBase key) alt ++ rest) = false →
      rewriteKey stem (pre ++ matchText (splitextBase key) alt ++ rest) (key, info) =
        some (pre ++ mkReplacement key stem info.filename ++
          reSubAllT (splitextBase key)
            ((mkReplacement key stem info.filename).map .lit) rest)) ∧
    (hasM (splitextBase key)
        (pre ++ mkReplacement key stem info.filename ++
          reSubAllT key ((mkReplacement key stem info.filename).map .lit) rest) = false →
      rewriteKey stem (pre ++ matchText key alt ++ rest) (key, info) =
        some (pre ++ mkReplacement key stem info.filename ++
          reSubAllT key ((mkReplacement key stem info.filename).map .lit) rest)) ∧
    rewritePage "doc".toList [("img1".toList, ⟨none, "img1.jpeg".toList, false, none⟩)]
      "![x](img1)".toList = some "![img1](doc/img1.jpeg)".toList := by
  have htem : '\\' ∉ mkReplacement key stem info.filename := by
    intro h
    rcases mkReplacement_backslash _ _ _ h with h | h | h
    · exact hbk h
    · exact hbs h
    · exact hbf h
  have c1 : reSubAllT key ((mkReplacement key stem info.filename).map .lit)
      (pre ++ matchText key alt ++ rest) =
      pre ++ mkReplacement key stem info.filename ++
        reSubAllT key ((mkReplacement key stem info.filename).map .lit) rest := by
    rw [reSubAllT_occurrence key ((mkReplacement key stem info.filename).map .lit)
      alt rest hn hb pre hpre, expandItems_map_lit]
  have c2 : reSubAllT (splitextBase key) ((mkReplacement key stem info.filename).map .lit)
      (pre ++ matchText (splitextBase key) alt ++ rest) =
      pre ++ mkReplacement key stem info.filename ++
        reSubAllT (splitextBase key)
          ((mkReplacement key stem info.filename).map .lit) rest := by
    rw [reSubAllT_occurrence (splitextBase key)
      ((mkReplacement key stem info.filename).map .lit) alt rest hn hb pre hpre,
      expandItems_map_lit]
  refine ⟨c1, c2, ?_, ?_, by decide⟩
  · intro hmk
    have hsub2 : reSub (splitextBase key) (mkReplacement key stem info.filename)
        (pre ++ matchText (splitextBase key) alt ++ rest) =
        some (pre ++ mkReplacement key stem info.filename ++
          reSubAllT (splitextBase key)
            ((mkReplacement key stem info.filename).map .lit) rest) := by
      unfold reSub
      rw [parseTemplate_noBackslash _ htem]
      simp only [Option.map_some']
      rw [c2]
    unfold rewriteKey
    rw [reSub_of_hasM_false _ _ _ htem hmk]
    exact hsub2
  · intro hre
    have hsub1 : reSub key (mkReplacement key stem info.filename)
        (pre ++ matchText key alt ++ rest) =
        some (pre ++ mkReplacement key stem info.filename ++
          reSubAllT key ((mkReplacement key stem info.filename).map .lit) rest) := by
      unfold reSub
      rw [parseTemplate_noBackslash _ htem]
      simp only [Option.map_some']
      rw [c1]
    unfold rewriteKey
    rw [hsub1]
    exact reSub_of_hasM_false _ _ _ htem hre

/-- Witness for C6: `rewriteKey` on markdown holding a base-form occurrence
`![x](img1)` of identifier `img1.jpeg`, between a prefix and a suffix,
rewrites exactly that occurrence to `![img1.jpeg](doc/img1.jpeg.jpeg)`. -/
theorem rewritePage_occurrence_rewrite_app :
    rewriteKey "doc".toList
      ("pre ".toList ++ matchText (splitextBase "img1.jpeg".toList) "x".toList ++
        " post".toList)
      ("img1.jpeg".toList, ⟨none, "img1.jpeg.jpeg".toList, true, none⟩) =
      some ("pre ".toList ++
        mkReplacement "img1.jpeg".toList "doc".toList "img1.jpeg.jpeg".toList ++
        reSubAllT (splitextBase "img1.jpeg".toList)
          ((mkReplacement "img1.jpeg".toList "doc".toList "img1.jpeg.jpeg".toList).map .lit)
          " post".toList) :=
  (rewritePage_occurrence_rewrite "img1.jpeg".toList "doc".toList
    ⟨none, "img1.jpeg.jpeg".toList, true, none⟩ "pre ".toList "x".toList " post".toList
    (by decide) (by decide) (by decide) (by decide) (by decide) (by decide)).2.2.1
    (by decide)

/-- C7 counterexample: an identifier containing the backslash escape `\q`
raises inside `re.sub` (bad escape in the unescaped replacement template)
even though the markdown `hello` contains no matching reference at all, so
the rewriter errors instead of returning the input unchanged. -/
theorem rewritePage_unmatched_error_counterexample :
    hasM "a\\qb".toList "hello".toList = false ∧
    hasM (splitextBase "a\\qb".toList) "hello".toList = false ∧
    rewritePage "doc".toList [("a\\qb".toList, ⟨none, "f.jpeg".toList, false, none⟩)]
      "hello".toList = none :=
  ⟨by decide, by decide, by decide⟩

/-- C7 (amended): when no identifier, stem or filename contains a backslash,
a markdown input in which no identifier (or its base form) matches is
returned unchanged and no error is raised. -/
theorem rewritePage_unmatched_identity (fileStem : List Char)
    (imgs : List (List Char × ImgInfo)) (md : List Char)
    (hstem : '\\' ∉ fileStem)
    (hks : ∀ kv ∈ imgs, '\\' ∉ kv.1 ∧ '\\' ∉ kv.2.filename)
    (hnm : ∀ kv ∈ imgs, hasM kv.1 md = false ∧ hasM (splitextBase kv.1) md = false) :
    rewritePage fileStem imgs md = some md := by
  induction imgs with
  | nil => rfl
  | cons kv rest ih =>
      have hkv := hks kv (List.mem_cons_self kv rest)
      have hmv := hnm kv (List.mem_cons_self kv rest)
      have hkey : rewriteKey fileStem md kv = some md :=
        rewriteKey_of_unmatched fileStem md kv hkv.1 hkv.2 hstem hmv.1 hmv.2
      have e1 : rewritePage fileStem (kv :: rest) md =
          (rewriteKey fileStem md kv).bind (fun md1 => rewritePage fileStem rest md1) := by
        simp [rewritePage, List.foldlM_cons]
      rw [e1, hkey]
      exact ih (fun kv2 h2 => hks kv2 (List.mem_cons_of_mem kv h2))
        (fun kv2 h2 => hnm kv2 (List.mem_cons_of_mem kv h2))

/-- Witness for C7: a one-entry map with no match leaves `hello` unchanged. -/
theorem rewritePage_unmatched_identity_app :
    rewritePage "doc".toList [("img1".toList, ⟨none, "img1.jpeg".toList, false, none⟩)]
      "hello".toList = some "hello".toList :=
  rewritePage_unmatched_identity "doc".toList
    [("img1".toList, ⟨none, "img1.jpeg".toList, false, none⟩)] "hello".toList
    (by decide) (by decide) (by decide)

/-- C8 counterexample: the identifier `a\nb` (with a literal backslash-n) is
matched literally thanks to pattern escaping, but the unescaped replacement
template turns `\n` into a newline, so the rewriting produces a replacement
different from the literal `![a\nb](doc/a\nb.jpeg)` the claim requires. -/
theorem rewritePage_backslash_counterexample :
    rewritePage "doc".toList
      [("a\\nb".toList, ⟨some "eA==".toList, "a\\nb.jpeg".toList, true, none⟩)]
      "![x](a\\nb)".toList = some "![a\nb](doc/a\nb.jpeg)".toList ∧
    "![a\nb](doc/a\nb.jpeg)".toList ≠ "![a\\nb](doc/a\\nb.jpeg)".toList :=
  ⟨by decide, by decide⟩

/-- C8 (amended): the identifier is matched as a literal string (it is
escaped in the pattern), and for identifiers, stems and filenames free of
backslashes the rewriting completes without error and every replacement is
the literal replacement string; an identifier containing a backslash can
still alter the replacement text or raise, because the replacement string is
not escaped. -/
theorem rewritePage_escaped_literal (fileStem : List Char)
    (imgs : List (List Char × ImgInfo)) (md : List Char)
    (hstem : '\\' ∉ fileStem)
    (hks : ∀ kv ∈ imgs, '\\' ∉ kv.1 ∧ '\\' ∉ kv.2.filename) :
    rewritePage fileStem imgs md = some (rewritePageLit fileStem imgs md) := by
  induction imgs generalizing md with
  | nil => rfl
  | cons kv rest ih =>
      have hkv := hks kv (List.mem_cons_self kv rest)
      have htem : '\\' ∉ mkReplacement kv.1 fileStem kv.2.filename := by
        intro h
        rcases mkReplacement_backslash _ _ _ h with h | h | h
        · exact hkv.1 h
        · exact hstem h
        · exact hkv.2 h
      have hkey : rewriteKey fileStem md kv = some (rewriteKeyLit fileStem md kv) := by
        unfold rewriteKey reSub rewriteKeyLit
        rw [parseTemplate_noBackslash _ htem]
        simp
      have e1 : rewritePage fileStem (kv :: rest) md =
          (rewriteKey fileStem md kv).bind (fun md1 => rewritePage fileStem rest md1) := by
        simp [rewritePage, List.foldlM_cons]
      have e2 : rewritePageLit fileStem (kv :: rest) md =
          rewritePageLit fileStem rest (rewriteKeyLit fileStem md kv) := rfl
      rw [e1, hkey, e2]
      exact ih (rewriteKeyLit fileStem md kv)
        (fun kv2 h2 => hks kv2 (List.mem_cons_of_mem kv h2))

/-- Witness for C8: a metacharacter-laden but backslash-free identifier
`i(m)g+1.x` is rewritten literally without error. -/
theorem rewritePage_escaped_literal_app :
    rewritePage "doc".toList
      [("i(m)g+1.x".toList, ⟨none, "i(m)g+1.x.x".toList, true, none⟩)]
      "see ![x](i(m)g+1.x) end".toList =
      some (rewritePageLit "doc".toList
        [("i(m)g+1.x".toList, ⟨none, "i(m)g+1.x.x".toList, true, none⟩)]
        "see ![x](i(m)g+1.x) end".toList) :=
  rewritePage_escaped_literal "doc".toList
    [("i(m)g+1.x".toList, ⟨none, "i(m)g+1.x.x".toList, true, none⟩)]
    "see ![x](i(m)g+1.x) end".toList (by decide) (by decide)
